import Mathlib

/-!
Verification of the package-emission core of melange (`src/pkg/build/package.go`).

Strings of the Go program are modelled as Lean `String`s (lists of characters).
Go compares strings bytewise on their UTF-8 encoding; since UTF-8 preserves
code-point order, this agrees with the code-point lexicographic order `lexLt`
defined below, which we use to model `sort.Strings`.
-/

namespace Melange

/-- Code-point lexicographic strict order on character lists; models Go's
bytewise `<` on strings (UTF-8 encoding preserves code-point order). -/
def lexLt : List Char → List Char → Bool
  | [], [] => false
  | [], _ :: _ => true
  | _ :: _, [] => false
  | a :: as, b :: bs =>
    if a.toNat < b.toNat then true
    else if b.toNat < a.toNat then false
    else lexLt as bs

/-- Strict lexicographic order on strings, as used by Go's `sort.Strings`. -/
def strLt (a b : String) : Bool := lexLt a.data b.data

/-- Non-strict lexicographic order on strings. -/
def strLe (a b : String) : Bool := !(strLt b a)

/-- `sort.Strings` (package.go:311): any correct sort of a linearly ordered
list of strings; sorted permutations are unique, so `insertionSort` is
extensionally the same function as Go's pattern-defeating quicksort. -/
def sortStrings (l : List String) : List String :=
  List.insertionSort (fun a b => strLe a b = true) l

/-- The loop of `dedup` (package.go:314-321): `prev` starts as the zero value
`""` and elements equal to `prev` are skipped. -/
def dedupLoop : List String → String → List String
  | [], _ => []
  | cur :: rest, prev =>
    if cur = prev then dedupLoop rest prev
    else cur :: dedupLoop rest cur

/-- `dedup` (package.go:310-324): sort, then drop consecutive duplicates. -/
def dedup (l : List String) : List String :=
  dedupLoop (sortStrings l) ""

/-- `strings.Split(versionedDep, "=")[0]` (package.go:658): the part of the
string before the first `'='`, or the whole string when there is none. -/
def depName (s : String) : String :=
  ⟨s.data.takeWhile (fun c => c ≠ '=')⟩

/-- `removeSelfProvidedDeps` (package.go:653-673): drop every runtime entry
whose full text equals the `=`-prefix of some provides entry.  The Go code
materialises the prefixes as a hash-set; list membership is the same test. -/
def removeSelfProvidedDeps (runtimeDeps providedDeps : List String) : List String :=
  let providedNames := providedDeps.map depName
  runtimeDeps.filter (fun dep => decide (dep ∉ providedNames))

/-- The merge step of `GenerateDependencies` (package.go:689-695), parametric
in the entries produced by the three generators (which scan the real
filesystem): concatenate declared and generated entries, `dedup` both lists,
then filter self-provided names out of runtime. -/
def generateDependencies (declRuntime declProvides genRuntime genProvides : List String) :
    List String × List String :=
  let newruntime := dedup (declRuntime ++ genRuntime)
  let newprovides := dedup (declProvides ++ genProvides)
  (removeSelfProvidedDeps newruntime newprovides, newprovides)

/-- `allowedPrefix` (package.go:326-334): plain `strings.HasPrefix` against a
list of prefix strings.  (The Go identifier cannot be used verbatim here.) -/
def allowedPfx (path : String) (pfxs : List String) : Bool :=
  pfxs.any (fun d => d.data.isPrefixOf path.data)

/-- `cmdPrefixes` (package.go:336). -/
def cmdPrefixes : List String := ["bin", "sbin", "usr/bin", "usr/sbin"]

/-- The library directories of package.go:400 and :532. -/
def libDirs : List String := ["lib", "usr/lib", "lib64", "usr/lib64"]

/-- `filepath.Base` for the clean, slash-free-tail paths produced by the
workspace walk: the longest suffix not containing a slash. -/
def baseName (s : String) : String :=
  ⟨(s.data.reverse.takeWhile (fun c => c ≠ '/')).reverse⟩

/-- Whether `path` lies strictly inside directory `dir`, i.e. starts with
`dir ++ "/"`.  Used to contrast with the plain-prefix test `allowedPfx`. -/
def isUnderDir (path dir : String) : Bool :=
  (dir ++ "/").data.isPrefixOf path.data

/-- Whether `sep` occurs as a contiguous subsequence of the list (models Go
`strings.Contains`). -/
def containsSeq (sep : List Char) : List Char → Bool
  | [] => sep.isEmpty
  | c :: rest => sep.isPrefixOf (c :: rest) || containsSeq sep rest

/-- The first pattern of `pats` whose left component is a prefix of `s`. -/
def findPat (pats : List (List Char × List Char)) (s : List Char) :
    Option (List Char × List Char) :=
  pats.find? (fun pr => pr.1.isPrefixOf s)

/-- Fuelled single-pass leftmost non-overlapping multi-pattern replacement:
the common core of Go `regexp.ReplaceAllString` on an alternation of literals
and of `strings.ReplaceAll`.  Fuel bounds the number of steps; `scanReplace`
supplies enough fuel for the whole input. -/
def scanReplaceFuel (pats : List (List Char × List Char)) : Nat → List Char → List Char
  | _, [] => []
  | 0, s => s
  | fuel + 1, c :: rest =>
    (findPat pats (c :: rest)).elim
      (c :: scanReplaceFuel pats fuel rest)
      (fun pr => pr.2 ++ scanReplaceFuel pats fuel (rest.drop (pr.1.length - 1)))

/-- Leftmost non-overlapping replacement of every occurrence of the patterns. -/
def scanReplace (pats : List (List Char × List Char)) (s : List Char) : List Char :=
  scanReplaceFuel pats s.length s

/-- `pkgConfigVersionRegexp` (package.go:582): the literal alternatives of the
regex `-(alpha|beta|rc|pre)` paired with their `_$1` replacements.  The four
alternatives are pairwise non-prefix, so at any position at most one matches
and Go's leftmost-first scan is exactly `scanReplace`. -/
def pcPatterns : List (List Char × List Char) :=
  [("-alpha".data, "_alpha".data),
   ("-beta".data, "_beta".data),
   ("-rc".data, "_rc".data),
   ("-pre".data, "_pre".data)]

/-- `pkgConfigVersionRegexp.ReplaceAllString(v, "_$1")` (package.go:624) on
character lists. -/
def apkVersionChars (v : List Char) : List Char :=
  scanReplace pcPatterns v

/-- `pkgConfigVersionRegexp.ReplaceAllString(v, "_$1")` (package.go:624). -/
def apkVersion (v : String) : String :=
  ⟨apkVersionChars v.data⟩

/-- Modelled from the spec words of claim C4: "apk-version(v) replaces the
FIRST occurrence of `-alpha|-beta|-rc|-pre` with `_alpha|_beta|_rc|_pre`".
Rewrites only the leftmost match and copies the rest verbatim; defined only
to compare against the code's replace-all behaviour. -/
def firstOccurrenceRewrite : List Char → List Char
  | [] => []
  | c :: rest =>
    (findPat pcPatterns (c :: rest)).elim
      (c :: firstOccurrenceRewrite rest)
      (fun pr => pr.2 ++ rest.drop (pr.1.length - 1))

/-- Modelled from the spec words of claim C4 (first-occurrence-only rewrite),
lifted to strings. -/
def specApkVersionFirst (v : String) : String :=
  ⟨firstOccurrenceRewrite v.data⟩

/-- `strings.CutSuffix` as used at package.go:622: remove `sfx` when present. -/
def cutSuffix (s sfx : String) : String :=
  if sfx.data.isSuffixOf s.data then ⟨s.data.take (s.data.length - sfx.data.length)⟩ else s

/-- The provides entry `fmt.Sprintf("pc:%s=%s", pcName, apkVersion)` of
package.go:621-626. -/
def pcProvidesEntry (path version : String) : String :=
  "pc:" ++ cutSuffix (baseName path) ".pc" ++ "=" ++ apkVersion version

/-- One walk entry as seen by `generatePkgConfigDeps` (package.go:593-646):
the path, whether it is a symlink, whether `pkgconfig.Load` succeeded, and
the descriptor's version string. -/
structure PcFile where
  path : String
  isSymlink : Bool
  loadOk : Bool
  version : String

/-- The per-entry body of the `generatePkgConfigDeps` walk
(package.go:593-646), restricted to the provides side (the runtime side is
gated off by the `generateRuntimePkgConfigDeps = false` feature flag). -/
def pcProviderForEntry (noProvides : Bool) (f : PcFile) : List String :=
  if (".pc".data.isSuffixOf f.path.data) = false then []
  else if f.isSymlink then []
  else if f.loadOk = false then []
  else if noProvides = false then [pcProvidesEntry f.path f.version]
  else []

/-- `config.PackageOption` fields consulted by the dependency generators. -/
structure PackageOption where
  noCommands : Bool
  noDepends : Bool
  noProvides : Bool

/-- One walk entry as seen by `generateSharedObjectNameDeps`
(package.go:434-557).  Environment-dependent results of `elf.Open`,
`findInterpreter`, `ImportedLibraries` and `DynString(DT_SONAME)` appear as
fields; `none` models the corresponding error return.  `derefSonames` models
the sonames of the target of `dereferenceCrossPackageSymlink`, empty on any
failure. -/
structure SoEntry where
  path : String
  isSymlink : Bool
  isRegular : Bool
  perm : Nat
  elfOpenOk : Bool
  interp : String
  importedLibs : Option (List String)
  sonames : Option (List String)
  derefSonames : List String

/-- The `so:ld-musl → so:libc.musl` substitution pair of package.go:506
(`strings.ReplaceAll`, i.e. every occurrence is replaced). -/
def muslPair : List (List Char × List Char) :=
  [("so:ld-musl".data, "so:libc.musl".data)]

/-- The runtime entry generated for an interpreter (package.go:505-507):
`so:{basename(interp)}` with every occurrence of `so:ld-musl` replaced by
`so:libc.musl`. -/
def interpRuntimeEntry (interp : String) : String :=
  ⟨scanReplace muslPair ("so:" ++ baseName interp).data⟩

/-- Modelled from the spec words of claim C8: "after substituting the PREFIX
`so:ld-musl → so:libc.musl`"; substitutes only a leading occurrence.  Defined
only to compare against the code's `strings.ReplaceAll`. -/
def specMuslPrefixSubst (s : String) : String :=
  if "so:ld-musl".data.isPrefixOf s.data then
    ⟨"so:libc.musl".data ++ s.data.drop ("so:ld-musl".data.length)⟩
  else s

/-- Fuelled worker for `strings.Split` (non-empty separator): Go's leftmost
non-overlapping split.  `acc` holds the current field reversed. -/
def splitOnAux (sep : List Char) : Nat → List Char → List Char → List (List Char)
  | 0, acc, s => [acc.reverse ++ s]
  | _ + 1, acc, [] => [acc.reverse]
  | fuel + 1, acc, c :: rest =>
    if sep.isPrefixOf (c :: rest) then
      acc.reverse :: splitOnAux sep fuel [] (rest.drop (sep.length - 1))
    else splitOnAux sep fuel (c :: acc) rest

/-- `strings.Split` (package.go:545) for a non-empty separator. -/
def splitOnGo (sep s : List Char) : List (List Char) :=
  splitOnAux sep s.length [] s

/-- `libver` for a soname (package.go:544-552): `parts[1]` of the split on
the literal `.so.` when there is more than one part, else `"0"`. -/
def libverOf (soname : String) : String :=
  match splitOnGo ".so.".data soname.data with
  | _ :: second :: _ => ⟨second⟩
  | _ => "0"

/-- The provides entry `fmt.Sprintf("so:%s=%s", soname, libver)` of
package.go:554. -/
def soProvideEntry (soname : String) : String :=
  "so:" ++ soname ++ "=" ++ libverOf soname

/-- The per-entry body of the `generateSharedObjectNameDeps` walk
(package.go:434-557), returning the (runtime, provides) contributions of one
entry in emission order.  Mirrors the Go control flow: the symlink arm keeps
only `.so` paths; the regular arm requires the 0o555 permission mask and a
successful `elf.Open`, appends the interpreter runtime entry, then the
`DT_NEEDED` entries containing `.so.`, and finally — when the file has no
interpreter or its basename starts with `libc`, and the path passes the
library-directory prefix test — the `DT_SONAME` provides entries. -/
def soDepsForEntry (opts : PackageOption) (e : SoEntry) : List String × List String :=
  if e.isSymlink then
    if containsSeq ".so".data e.path.data then
      (e.derefSonames.map (fun s => "so:" ++ s), [])
    else ([], [])
  else if e.isRegular = false then ([], [])
  else if e.perm &&& 0o555 = 0o555 then
    if e.elfOpenOk = false then ([], [])
    else
      let rt1 :=
        if e.interp ≠ "" ∧ opts.noDepends = false then [interpRuntimeEntry e.interp] else []
      match e.importedLibs with
      | none => (rt1, [])
      | some libs =>
        let rt2 :=
          if opts.noDepends = false then
            (libs.filter (fun lib => containsSeq ".so.".data lib.data)).map
              (fun lib => "so:" ++ lib)
          else []
        let prov :=
          if opts.noProvides = false ∧
              (e.interp = "" ∨ "libc".data.isPrefixOf (baseName e.path).data = true) then
            if allowedPfx e.path libDirs = false then []
            else
              match e.sonames with
              | none => []
              | some ss => ss.map soProvideEntry
          else []
        (rt1 ++ rt2, prov)
  else ([], [])

/-- The per-entry body of the `generateCmdProviders` walk
(package.go:338-374): a regular file with the 0o555 permission mask under a
command prefix yields `cmd:{basename}={version}-r{epoch}`. -/
def cmdProviderForEntry (noCommands : Bool) (version : String) (epoch : Nat)
    (path : String) (isRegular : Bool) (perm : Nat) : List String :=
  if noCommands then []
  else if isRegular = false then []
  else if perm &&& 0o555 = 0o555 then
    if allowedPfx path cmdPrefixes then
      ["cmd:" ++ baseName path ++ "=" ++ version ++ "-r" ++ toString epoch]
    else []
  else []

/-- `wantSignature` (package.go:770-772). -/
def wantSignature (signingKey : String) : Bool :=
  signingKey != ""

/-- `ApkSigner` selection (package.go:850-861). -/
inductive ApkSigner where
  | fulcioApkSigner : ApkSigner
  | keyApkSigner : String → String → ApkSigner
deriving DecidableEq

/-- `Signer` (package.go:850-861): keyless Fulcio signer when no signing key
is configured, keyed signer otherwise. -/
def signerFor (signingKey signingPassphrase : String) : ApkSigner :=
  if signingKey = "" then ApkSigner.fulcioApkSigner
  else ApkSigner.keyApkSigner signingKey signingPassphrase

/-- `combine` (package.go:702-710): `io.Copy` each input in order to the
output, i.e. byte concatenation.  Byte sequences are modelled as `List Nat`. -/
def combine (inputs : List (List Nat)) : List Nat :=
  inputs.foldl (fun acc part => acc ++ part) []

/-- The assembly step of `EmitPackage` (package.go:814-838): the combined
parts are `[control, data]`, with the signature section prepended exactly
when `wantSignature` holds, and the output file is their `combine`. -/
def emitApkBytes (signatureData controlSectionData dataTarGz : List Nat)
    (signingKey : String) : List Nat :=
  let combinedParts := [controlSectionData, dataTarGz]
  let withSig :=
    if wantSignature signingKey then signatureData :: combinedParts else combinedParts
  combine withSig

/-- The build-log line of package.go:166:
`fmt.Sprintf("%s|%s|%s|%s-r%d\n", arch, originName, packageName, version, epoch)`. -/
def buildLogLine (arch originName packageName version : String) (epoch : Nat) : String :=
  arch ++ "|" ++ originName ++ "|" ++ packageName ++ "|" ++ version ++ "-r" ++
    toString epoch ++ "\n"

/-- `AppendBuildLog` (package.go:153-168) as a transformer of the
`packages.log` contents (a list of lines).  `openErr`/`writeErr` model the
environment's outcome of `os.OpenFile` and `WriteString`; with
`createBuildLog = false` the function returns `nil` before touching the
filesystem. -/
def appendBuildLog (createBuildLog : Bool) (openErr writeErr : Option String)
    (line : String) (packagesLog : List String) : Option String × List String :=
  if createBuildLog = false then (none, packagesLog)
  else
    match openErr with
    | some e => (some e, packagesLog)
    | none =>
      match writeErr with
      | some e => (some e, packagesLog)
      | none => (none, packagesLog ++ [line])

/-- The tail of `EmitPackage` (package.go:830-847): the apk bytes are written,
then `AppendBuildLog` runs and its error is only warned about, never
propagated.  Returns the apk bytes and the resulting `packages.log` state. -/
def emitPackageWithLog (sig ctrl dat : List Nat) (signingKey : String)
    (createBuildLog : Bool) (openErr writeErr : Option String) (line : String)
    (packagesLog : List String) : List Nat × List String :=
  let apk := emitApkBytes sig ctrl dat signingKey
  let logResult := appendBuildLog createBuildLog openErr writeErr line packagesLog
  (apk, logResult.2)

/-- The dependency-log epilogue of `generateSharedObjectNameDeps`
(package.go:564-577): with `dependencyLog` unset nothing happens; otherwise a
failed `os.Create` is only warned about (`createErr` is ignored), but a
failed `json.Encoder.Encode` — which models both a genuine write failure and
the unavoidable `ErrInvalid` write to the nil file after a failed create —
is returned to the caller. -/
def depLogWrite (dependencyLog arch : String) (createErr encodeErr : Option String) :
    Except String Unit :=
  if dependencyLog = "" then Except.ok ()
  else
    match encodeErr with
    | some e => Except.error e
    | none => Except.ok ()

/-- `GenerateDependencies` (package.go:675-700) with the
`generateSharedObjectNameDeps` outcome made explicit: an error from a
generator is returned immediately and the merge never happens. -/
def generateDependenciesE (soScan : Except String Unit)
    (declRuntime declProvides genRuntime genProvides : List String) :
    Except String (List String × List String) :=
  match soScan with
  | Except.error e => Except.error e
  | Except.ok _ =>
    Except.ok (generateDependencies declRuntime declProvides genRuntime genProvides)

theorem lexLt_irrefl : ∀ l : List Char, lexLt l l = false := by
  intro l
  induction l with
  | nil => rfl
  | cons x xs ih => simp [lexLt, ih]

theorem lexLt_asymm : ∀ a b : List Char, lexLt a b = true → lexLt b a = false := by
  intro a
  induction a with
  | nil => intro b h; cases b <;> simp_all [lexLt]
  | cons x xs ih =>
    intro b h
    cases b with
    | nil => simp_all [lexLt]
    | cons y ys =>
      simp only [lexLt] at h ⊢
      split at h
      · next hxy => simp [Nat.not_lt.mpr (Nat.le_of_lt hxy), hxy, Nat.lt_asymm hxy]
      · split at h
        · exact absurd h (by simp)
        · next h1 h2 => simp [h1, h2, ih _ h]

theorem lexLt_trichotomy : ∀ a b : List Char, lexLt a b = true ∨ a = b ∨ lexLt b a = true := by
  intro a
  induction a with
  | nil => intro b; cases b <;> simp [lexLt]
  | cons x xs ih =>
    intro b
    cases b with
    | nil => simp [lexLt]
    | cons y ys =>
      rcases Nat.lt_trichotomy x.toNat y.toNat with h | h | h
      · left; simp [lexLt, h]
      · have hxy : x = y := Char.eq_of_val_eq (UInt32.ext h)
        subst hxy
        rcases ih ys with h2 | h2 | h2
        · left; simp [lexLt, h2]
        · right; left; simp [h2]
        · right; right; simp [lexLt, h2]
      · right; right; simp [lexLt, h]

theorem lexLt_trans :
    ∀ a b c : List Char, lexLt a b = true → lexLt b c = true → lexLt a c = true := by
  intro a
  induction a with
  | nil =>
    intro b c hab hbc
    cases c with
    | nil => cases b <;> simp_all [lexLt]
    | cons z zs => simp [lexLt]
  | cons x xs ih =>
    intro b c hab hbc
    cases b with
    | nil => simp [lexLt] at hab
    | cons y ys =>
      cases c with
      | nil => simp [lexLt] at hbc
      | cons z zs =>
        simp only [lexLt] at hab hbc ⊢
        by_cases h1 : x.toNat < y.toNat
        · by_cases h2 : y.toNat < z.toNat
          · simp [Nat.lt_trans h1 h2]
          · by_cases h3 : z.toNat < y.toNat
            · simp [h2, h3] at hbc
            · have hyz : y.toNat = z.toNat :=
                Nat.le_antisymm (Nat.le_of_not_lt h3) (Nat.le_of_not_lt h2)
              simp [hyz ▸ h1]
        · by_cases h1' : y.toNat < x.toNat
          · simp [h1, h1'] at hab
          · have hxy : x.toNat = y.toNat :=
              Nat.le_antisymm (Nat.le_of_not_lt h1') (Nat.le_of_not_lt h1)
            simp [h1, h1'] at hab
            by_cases h2 : y.toNat < z.toNat
            · simp [hxy ▸ h2]
            · by_cases h3 : z.toNat < y.toNat
              · simp [h2, h3] at hbc
              · simp [h2, h3] at hbc
                have hyz : y.toNat = z.toNat :=
                  Nat.le_antisymm (Nat.le_of_not_lt h3) (Nat.le_of_not_lt h2)
                have hxz : x.toNat = z.toNat := hxy.trans hyz
                simp [ih _ _ hab hbc]
                omega

theorem strLe_total : ∀ a b : String, strLe a b = true ∨ strLe b a = true := by
  intro a b
  by_cases h : lexLt b.data a.data = true
  · right
    simp [strLe, strLt, lexLt_asymm _ _ h]
  · left
    simp [strLe, strLt]
    exact Bool.not_eq_true _ ▸ h

theorem strLe_trans :
    ∀ a b c : String, strLe a b = true → strLe b c = true → strLe a c = true := by
  intro a b c hab hbc
  simp only [strLe, strLt, Bool.not_eq_true'] at hab hbc ⊢
  by_contra hca
  have hca' : lexLt c.data a.data = true := by
    cases h : lexLt c.data a.data
    · exact absurd h hca
    · rfl
  rcases lexLt_trichotomy b.data c.data with h | h | h
  · have := lexLt_trans _ _ _ h hca'
    simp [this] at hab
  · rw [← h] at hca'
    simp [hca'] at hab
  · simp [h] at hbc

instance strLeRelTotal : IsTotal String (fun a b => strLe a b = true) := ⟨strLe_total⟩

instance strLeRelTrans : IsTrans String (fun a b => strLe a b = true) := ⟨strLe_trans⟩

theorem strLt_of_strLe_of_ne (a b : String) (hle : strLe a b = true) (hne : a ≠ b) :
    strLt a b = true := by
  rcases lexLt_trichotomy a.data b.data with h | h | h
  · exact h
  · exact absurd (String.ext h) hne
  · simp only [strLe, strLt, Bool.not_eq_true'] at hle
    simp [h] at hle

theorem strLt_trans (a b c : String) (h1 : strLt a b = true) (h2 : strLt b c = true) :
    strLt a c = true :=
  lexLt_trans _ _ _ h1 h2

theorem strLt_ne (a b : String) (h : strLt a b = true) : a ≠ b := by
  intro he
  subst he
  simp [strLt, lexLt_irrefl] at h

theorem dedupLoop_mem_gt :
    ∀ (l : List String) (p : String),
      List.Sorted (fun a b => strLe a b = true) l →
      (∀ x ∈ l, strLe p x = true) →
      ∀ y ∈ dedupLoop l p, strLt p y = true := by
  intro l
  induction l with
  | nil => intro p _ _ y hy; simp [dedupLoop] at hy
  | cons c rest ih =>
    intro p hs hb y hy
    have hrest : List.Sorted (fun a b => strLe a b = true) rest :=
      (List.sorted_cons.mp hs).2
    have hcle : ∀ x ∈ rest, strLe c x = true := (List.sorted_cons.mp hs).1
    by_cases hcp : c = p
    · subst hcp
      rw [dedupLoop, if_pos rfl] at hy
      exact ih c hrest hcle y hy
    · rw [dedupLoop, if_neg hcp] at hy
      have hpc : strLt p c = true :=
        strLt_of_strLe_of_ne p c (hb c (List.mem_cons_self c rest)) (fun h => hcp h.symm)
      rcases List.mem_cons.mp hy with h | h
      · exact h ▸ hpc
      · exact strLt_trans p c y hpc (ih c hrest hcle y h)

theorem dedupLoop_sorted :
    ∀ (l : List String) (p : String),
      List.Sorted (fun a b => strLe a b = true) l →
      List.Sorted (fun a b => strLt a b = true) (dedupLoop l p) := by
  intro l
  induction l with
  | nil => intro p _; simp [dedupLoop, List.Sorted]
  | cons c rest ih =>
    intro p hs
    have hrest : List.Sorted (fun a b => strLe a b = true) rest :=
      (List.sorted_cons.mp hs).2
    have hcle : ∀ x ∈ rest, strLe c x = true := (List.sorted_cons.mp hs).1
    by_cases hcp : c = p
    · rw [dedupLoop, if_pos hcp]
      exact ih p hrest
    · rw [dedupLoop, if_neg hcp]
      rw [List.sorted_cons]
      exact ⟨dedupLoop_mem_gt rest c hrest hcle, ih c hrest⟩

theorem dedup_sorted (l : List String) :
    List.Sorted (fun a b => strLt a b = true) (dedup l) := by
  apply dedupLoop_sorted
  exact List.sorted_insertionSort (fun a b => strLe a b = true) l

theorem dedup_nodup (l : List String) : (dedup l).Nodup :=
  List.Pairwise.imp (fun h => strLt_ne _ _ h) (dedup_sorted l)

/-- C1: after `GenerateDependencies`, no entry of the runtime list equals the
name prefix (the substring before the first `'='`) of any entry of the
provides list; self-provided dependencies, declared or generated, are removed
from runtime. -/
theorem generateDependencies_no_self_provides (dr dp gr gp : List String) (r p : String)
    (hr : r ∈ (generateDependencies dr dp gr gp).1)
    (hp : p ∈ (generateDependencies dr dp gr gp).2) :
    r ≠ depName p := by
  have h1 : (generateDependencies dr dp gr gp).1 =
      (dedup (dr ++ gr)).filter
        (fun dep => decide (dep ∉ (dedup (dp ++ gp)).map depName)) := rfl
  have h2 : (generateDependencies dr dp gr gp).2 = dedup (dp ++ gp) := rfl
  rw [h1] at hr
  rw [h2] at hp
  rw [List.mem_filter] at hr
  have hnot := of_decide_eq_true hr.2
  intro he
  exact hnot (he ▸ List.mem_map_of_mem depName hp)

theorem generateDependencies_no_self_provides_witness :
    ("so:libbar.so.1" : String) ≠ depName "so:libfoo.so.2=2" :=
  generateDependencies_no_self_provides ["so:libbar.so.1"] ["so:libfoo.so.2=2"] [] []
    "so:libbar.so.1" "so:libfoo.so.2=2" (by decide) (by decide)

/-- C2: after `GenerateDependencies`, the runtime and provides lists are each
strictly ascending in lexicographic string order with no duplicates: the
concatenation of declared and generated entries is sorted and deduplicated,
and sortedness survives the self-provides filtering of runtime. -/
theorem generateDependencies_sorted_nodup (dr dp gr gp : List String) :
    List.Sorted (fun a b => strLt a b = true) (generateDependencies dr dp gr gp).1 ∧
    (generateDependencies dr dp gr gp).1.Nodup ∧
    List.Sorted (fun a b => strLt a b = true) (generateDependencies dr dp gr gp).2 ∧
    (generateDependencies dr dp gr gp).2.Nodup := by
  have h1 : (generateDependencies dr dp gr gp).1 =
      (dedup (dr ++ gr)).filter
        (fun dep => decide (dep ∉ (dedup (dp ++ gp)).map depName)) := rfl
  have h2 : (generateDependencies dr dp gr gp).2 = dedup (dp ++ gp) := rfl
  refine ⟨?_, ?_, ?_, ?_⟩
  · rw [h1]; exact List.Pairwise.filter _ (dedup_sorted _)
  · rw [h1]; exact List.Pairwise.filter _ (dedup_nodup _)
  · rw [h2]; exact dedup_sorted _
  · rw [h2]; exact dedup_nodup _

/-- C3: the emitted apk is the raw byte concatenation, in order, of the
signature member (present exactly when signing is requested), the control
member and the data member; reading the concatenation back at the member
boundaries recovers each member. -/
theorem emitPackage_concat (sig ctrl dat : List Nat) (key : String) :
    (wantSignature key = true →
      emitApkBytes sig ctrl dat key = sig ++ (ctrl ++ dat) ∧
      (emitApkBytes sig ctrl dat key).take sig.length = sig ∧
      ((emitApkBytes sig ctrl dat key).drop sig.length).take ctrl.length = ctrl ∧
      (emitApkBytes sig ctrl dat key).drop (sig.length + ctrl.length) = dat) ∧
    (wantSignature key = false →
      emitApkBytes sig ctrl dat key = ctrl ++ dat ∧
      (emitApkBytes sig ctrl dat key).take ctrl.length = ctrl ∧
      (emitApkBytes sig ctrl dat key).drop ctrl.length = dat) := by
  constructor
  · intro hw
    have he : emitApkBytes sig ctrl dat key = sig ++ (ctrl ++ dat) := by
      simp [emitApkBytes, combine, hw, List.append_assoc]
    refine ⟨he, ?_, ?_, ?_⟩
    · rw [he]; exact List.take_left sig (ctrl ++ dat)
    · rw [he, List.drop_left]; exact List.take_left ctrl dat
    · rw [he, ← List.append_assoc, ← List.length_append]
      exact List.drop_left (sig ++ ctrl) dat
  · intro hw
    have he : emitApkBytes sig ctrl dat key = ctrl ++ dat := by
      simp [emitApkBytes, combine, hw]
    refine ⟨he, ?_, ?_⟩
    · rw [he]; exact List.take_left ctrl dat
    · rw [he]; exact List.drop_left ctrl dat

theorem emitPackage_concat_witness :
    emitApkBytes [9] [2] [3] "k" = [9] ++ ([2] ++ [3]) ∧
    emitApkBytes [9] [2] [3] "" = [2] ++ [3] :=
  ⟨((emitPackage_concat [9] [2] [3] "k").1 (by decide)).1,
   ((emitPackage_concat [9] [2] [3] "").2 (by decide)).1⟩

/-- C5 counterexample: with no signing key configured, `wantSignature` is
false and the emitted apk is just control ++ data — it does not begin with
the signature member, contrary to the claim (the keyless signer would be
selected by `Signer`, but emission never invokes it). -/
theorem keyless_signature_counterexample :
    wantSignature "" = false ∧
    signerFor "" "" = ApkSigner.fulcioApkSigner ∧
    emitApkBytes [1] [2] [3] "" = [2, 3] ∧
    List.isPrefixOf [1] (emitApkBytes [1] [2] [3] "") = false := by
  decide

/-- C5 (amended): with no signing-key path configured, `wantSignature` is
false, so `EmitPackage` emits no signature section and the apk is the control
member followed by the data member; `Signer` would select the keyless Fulcio
signer, but emission never calls it. -/
theorem keyless_skips_signature (sig ctrl dat : List Nat) (pass : String) :
    wantSignature "" = false ∧
    signerFor "" pass = ApkSigner.fulcioApkSigner ∧
    emitApkBytes sig ctrl dat "" = ctrl ++ dat := by
  refine ⟨by decide, rfl, ?_⟩
  simp [emitApkBytes, combine, wantSignature]

/-- C6 counterexample: with `dependency-log` set, a failure to write the JSON
(here "disk full") is returned as an error by the shared-object scan, so
dependency generation does not return success — contrary to the claim. -/
theorem depLog_write_failure_counterexample :
    depLogWrite "deps.json" "x86_64" none (some "disk full") = Except.error "disk full" ∧
    generateDependenciesE (depLogWrite "deps.json" "x86_64" none (some "disk full"))
      [] [] [] [] = Except.error "disk full" ∧
    (Except.error "disk full" : Except String Unit) ≠ Except.ok () := by
  refine ⟨?_, ?_, ?_⟩
  · simp [depLogWrite]
  · simp [depLogWrite, generateDependenciesE]
  · intro h
    exact Except.noConfusion h

/-- C6 (amended): with `dependency-log` set, a failure of `os.Create` is only
warned about and never consulted (the scan result is independent of it), but
a failure of the JSON encode/write — including the unavoidable write failure
to the nil file after a failed create — is returned as an error by
`generateSharedObjectNameDeps`, and `GenerateDependencies` propagates it. -/
theorem depLog_failure_handling (dl arch : String) (ce : Option String) (hdl : dl ≠ "") :
    depLogWrite dl arch ce none = Except.ok () ∧
    (∀ e, depLogWrite dl arch ce (some e) = Except.error e) ∧
    (∀ e dr dp gr gp, generateDependenciesE (Except.error e) dr dp gr gp =
      Except.error e) := by
  refine ⟨?_, ?_, ?_⟩
  · simp [depLogWrite, hdl]
  · intro e; simp [depLogWrite, hdl]
  · intro e dr dp gr gp; rfl

theorem depLog_failure_handling_witness :
    depLogWrite "deps.json" "x86_64" (some "permission denied") none = Except.ok () :=
  (depLog_failure_handling "deps.json" "x86_64" (some "permission denied") (by decide)).1

/-- C10: with `create-build-log` unset, `AppendBuildLog` returns nil and has
no filesystem effect — `packages.log` is unchanged — and the other outputs of
`EmitPackage` (the apk bytes) are exactly those of the pure emission. -/
theorem appendBuildLog_disabled_noop (sig ctrl dat : List Nat) (key : String)
    (oe we : Option String) (line : String) (log : List String) :
    appendBuildLog false oe we line log = (none, log) ∧
    emitPackageWithLog sig ctrl dat key false oe we line log =
      (emitApkBytes sig ctrl dat key, log) := by
  constructor <;> rfl

theorem isPrefixOf_cons_beq (a b : Char) (as bs : List Char) :
    List.isPrefixOf (a :: as) (b :: bs) = ((a == b) && List.isPrefixOf as bs) := rfl

theorem isPrefixOf_nil_char (l : List Char) : List.isPrefixOf ([] : List Char) l = true :=
  List.isPrefixOf_nil_left

theorem isPrefixOf_self_append (l t : List Char) : List.isPrefixOf l (l ++ t) = true :=
  List.isPrefixOf_iff_prefix.mpr (List.prefix_append l t)

theorem pcPatterns_explicit : pcPatterns =
    [(['-', 'a', 'l', 'p', 'h', 'a'], ['_', 'a', 'l', 'p', 'h', 'a']),
     (['-', 'b', 'e', 't', 'a'], ['_', 'b', 'e', 't', 'a']),
     (['-', 'r', 'c'], ['_', 'r', 'c']),
     (['-', 'p', 'r', 'e'], ['_', 'p', 'r', 'e'])] := rfl

theorem scanReplaceFuel_congr (pats : List (List Char × List Char)) :
    ∀ f₁ f₂ s, s.length ≤ f₁ → s.length ≤ f₂ →
      scanReplaceFuel pats f₁ s = scanReplaceFuel pats f₂ s := by
  intro f₁
  induction f₁ with
  | zero =>
    intro f₂ s h1 _
    have hs : s = [] := List.length_eq_zero.mp (Nat.le_zero.mp h1)
    subst hs
    cases f₂ <;> rfl
  | succ f ih =>
    intro f₂ s h1 h2
    cases s with
    | nil => cases f₂ <;> rfl
    | cons c rest =>
      cases f₂ with
      | zero => simp at h2
      | succ f₂' =>
        have h1' : rest.length ≤ f := by
          rw [List.length_cons] at h1; omega
        have h2' : rest.length ≤ f₂' := by
          rw [List.length_cons] at h2; omega
        simp only [scanReplaceFuel]
        cases hfp : findPat pats (c :: rest) with
        | none =>
          simp only [Option.elim]
          rw [ih f₂' rest h1' h2']
        | some pr =>
          simp only [Option.elim]
          have hd : (rest.drop (pr.1.length - 1)).length ≤ rest.length := by
            rw [List.length_drop]; omega
          rw [ih f₂' _ (le_trans hd h1') (le_trans hd h2')]

theorem scanReplace_cons_none (pats : List (List Char × List Char)) (c : Char)
    (t : List Char) (h : findPat pats (c :: t) = none) :
    scanReplace pats (c :: t) = c :: scanReplace pats t := by
  show scanReplaceFuel pats (c :: t).length (c :: t) = _
  rw [List.length_cons]
  simp only [scanReplaceFuel, h, Option.elim]
  rfl

theorem scanReplace_cons_some (pats : List (List Char × List Char)) (c : Char)
    (t : List Char) (pr : List Char × List Char) (h : findPat pats (c :: t) = some pr) :
    scanReplace pats (c :: t) = pr.2 ++ scanReplace pats (t.drop (pr.1.length - 1)) := by
  show scanReplaceFuel pats (c :: t).length (c :: t) = _
  rw [List.length_cons]
  simp only [scanReplaceFuel, h, Option.elim]
  congr 1
  apply scanReplaceFuel_congr
  · rw [List.length_drop]; omega
  · exact le_rfl

theorem findPat_pc_none (c : Char) (t : List Char) (hc : c ≠ '-') :
    findPat pcPatterns (c :: t) = none := by
  have hb : (('-' : Char) == c) = false := beq_eq_false_iff_ne.mpr (Ne.symm hc)
  simp [findPat, pcPatterns_explicit, List.find?, isPrefixOf_cons_beq, hb]

theorem scan_pc_alpha (w : List Char) :
    scanReplace pcPatterns ("-alpha".data ++ w) =
      "_alpha".data ++ scanReplace pcPatterns w := by
  have hfp : findPat pcPatterns ('-' :: 'a' :: 'l' :: 'p' :: 'h' :: 'a' :: w) =
      some (['-', 'a', 'l', 'p', 'h', 'a'], ['_', 'a', 'l', 'p', 'h', 'a']) := by
    simp [findPat, pcPatterns_explicit, List.find?, isPrefixOf_cons_beq, isPrefixOf_nil_char]
  show scanReplace pcPatterns ('-' :: 'a' :: 'l' :: 'p' :: 'h' :: 'a' :: w) =
    '_' :: 'a' :: 'l' :: 'p' :: 'h' :: 'a' :: scanReplace pcPatterns w
  rw [scanReplace_cons_some pcPatterns '-' ('a' :: 'l' :: 'p' :: 'h' :: 'a' :: w) _ hfp]
  rfl

theorem scan_pc_beta (w : List Char) :
    scanReplace pcPatterns ("-beta".data ++ w) =
      "_beta".data ++ scanReplace pcPatterns w := by
  have e1 : (('a' : Char) == 'b') = false := by decide
  have hfp : findPat pcPatterns ('-' :: 'b' :: 'e' :: 't' :: 'a' :: w) =
      some (['-', 'b', 'e', 't', 'a'], ['_', 'b', 'e', 't', 'a']) := by
    simp [findPat, pcPatterns_explicit, List.find?, isPrefixOf_cons_beq,
      isPrefixOf_nil_char, e1]
  show scanReplace pcPatterns ('-' :: 'b' :: 'e' :: 't' :: 'a' :: w) =
    '_' :: 'b' :: 'e' :: 't' :: 'a' :: scanReplace pcPatterns w
  rw [scanReplace_cons_some pcPatterns '-' ('b' :: 'e' :: 't' :: 'a' :: w) _ hfp]
  rfl

theorem scan_pc_rc (w : List Char) :
    scanReplace pcPatterns ("-rc".data ++ w) =
      "_rc".data ++ scanReplace pcPatterns w := by
  have e1 : (('a' : Char) == 'r') = false := by decide
  have e2 : (('b' : Char) == 'r') = false := by decide
  have hfp : findPat pcPatterns ('-' :: 'r' :: 'c' :: w) =
      some (['-', 'r', 'c'], ['_', 'r', 'c']) := by
    simp [findPat, pcPatterns_explicit, List.find?, isPrefixOf_cons_beq,
      isPrefixOf_nil_char, e1, e2]
  show scanReplace pcPatterns ('-' :: 'r' :: 'c' :: w) =
    '_' :: 'r' :: 'c' :: scanReplace pcPatterns w
  rw [scanReplace_cons_some pcPatterns '-' ('r' :: 'c' :: w) _ hfp]
  rfl

theorem scan_pc_pre (w : List Char) :
    scanReplace pcPatterns ("-pre".data ++ w) =
      "_pre".data ++ scanReplace pcPatterns w := by
  have e1 : (('a' : Char) == 'p') = false := by decide
  have e2 : (('b' : Char) == 'p') = false := by decide
  have e3 : (('r' : Char) == 'p') = false := by decide
  have hfp : findPat pcPatterns ('-' :: 'p' :: 'r' :: 'e' :: w) =
      some (['-', 'p', 'r', 'e'], ['_', 'p', 'r', 'e']) := by
    simp [findPat, pcPatterns_explicit, List.find?, isPrefixOf_cons_beq,
      isPrefixOf_nil_char, e1, e2, e3]
  show scanReplace pcPatterns ('-' :: 'p' :: 'r' :: 'e' :: w) =
    '_' :: 'p' :: 'r' :: 'e' :: scanReplace pcPatterns w
  rw [scanReplace_cons_some pcPatterns '-' ('p' :: 'r' :: 'e' :: w) _ hfp]
  rfl

theorem apkVersionChars_pattern_append :
    ∀ (u p q w : List Char), (p, q) ∈ pcPatterns → (∀ c ∈ u, c ≠ '-') →
      apkVersionChars (u ++ p ++ w) = u ++ q ++ apkVersionChars w := by
  intro u
  induction u with
  | nil =>
    intro p q w hpq _
    simp only [List.nil_append]
    simp only [pcPatterns, List.mem_cons, List.mem_singleton, Prod.mk.injEq,
      List.not_mem_nil, or_false] at hpq
    rcases hpq with ⟨hp, hq⟩ | ⟨hp, hq⟩ | ⟨hp, hq⟩ | ⟨hp, hq⟩ <;> subst hp <;> subst hq
    · exact scan_pc_alpha w
    · exact scan_pc_beta w
    · exact scan_pc_rc w
    · exact scan_pc_pre w
  | cons c u' ih =>
    intro p q w hpq hu
    have hc : c ≠ '-' := hu c (List.mem_cons_self c u')
    have hrec := ih p q w hpq (fun x hx => hu x (List.mem_cons_of_mem c hx))
    show apkVersionChars (c :: (u' ++ p ++ w)) = c :: (u' ++ q ++ apkVersionChars w)
    rw [apkVersionChars, scanReplace_cons_none pcPatterns c _ (findPat_pc_none c _ hc)]
    exact congrArg (c :: ·) hrec

theorem string_data_append (s t : String) : (s ++ t).data = s.data ++ t.data := rfl

/-- C4 (amended): for a non-symlink `.pc` descriptor with `no-provides` unset,
the generated provides entry is `pc:{basename-without-.pc}={apk-version(v)}`,
where `apk-version` replaces EVERY leftmost non-overlapping occurrence of
`-alpha`, `-beta`, `-rc` or `-pre` (not only the first) with `_alpha`,
`_beta`, `_rc`, `_pre`: rewriting one occurrence leaves the scan running on
the remainder of the version string. -/
theorem pcProvider_rewrites_every_occurrence (path : String) (u w p q : List Char)
    (hpq : (p, q) ∈ pcPatterns) (hu : ∀ c ∈ u, c ≠ '-')
    (hsfx : ".pc".data.isSuffixOf path.data = true) :
    pcProviderForEntry false ⟨path, false, true, ⟨u ++ p ++ w⟩⟩ =
      ["pc:" ++ cutSuffix (baseName path) ".pc" ++ "=" ++ ⟨u ++ q ++ apkVersionChars w⟩] := by
  have hcore := apkVersionChars_pattern_append u p q w hpq hu
  simp only [pcProviderForEntry, hsfx]
  norm_num
  simp only [pcProvidesEntry, apkVersion]
  have hcore' : apkVersionChars (u ++ (p ++ w)) = u ++ (q ++ apkVersionChars w) := by
    rw [← List.append_assoc, hcore, List.append_assoc]
  rw [hcore']

theorem pcProvider_rewrites_every_occurrence_witness :
    pcProviderForEntry false ⟨"usr/lib/pkgconfig/foo.pc", false, true, "1.0-rc2"⟩ =
      ["pc:foo=1.0_rc2"] := by
  have h := pcProvider_rewrites_every_occurrence "usr/lib/pkgconfig/foo.pc"
    ['1', '.', '0'] ['2'] "-rc".data "_rc".data (by decide) (by decide) (by decide)
  have e1 : (⟨['1', '.', '0'] ++ "-rc".data ++ ['2']⟩ : String) = "1.0-rc2" := by decide
  have e2 : ("pc:" ++ cutSuffix (baseName "usr/lib/pkgconfig/foo.pc") ".pc" ++ "=" ++
      (⟨['1', '.', '0'] ++ "_rc".data ++ apkVersionChars ['2']⟩ : String) : String) =
      "pc:foo=1.0_rc2" := by decide
  rw [e1, e2] at h
  exact h

/-- C4 counterexample: on version `1.0-rc1-rc2` the code
(`regexp.ReplaceAllString`) rewrites BOTH occurrences of `-rc`, producing
`pc:foo=1.0_rc1_rc2`, while the claim's first-occurrence-only rewrite would
produce `pc:foo=1.0_rc1-rc2`. -/
theorem pcProvider_first_occurrence_counterexample :
    pcProviderForEntry false ⟨"usr/lib/pkgconfig/foo.pc", false, true, "1.0-rc1-rc2"⟩ =
      ["pc:foo=1.0_rc1_rc2"] ∧
    specApkVersionFirst "1.0-rc1-rc2" = "1.0_rc1-rc2" ∧
    ("pc:foo=" ++ specApkVersionFirst "1.0-rc1-rc2" : String) ≠ "pc:foo=1.0_rc1_rc2" := by
  decide

theorem muslPair_explicit : muslPair =
    [(['s', 'o', ':', 'l', 'd', '-', 'm', 'u', 's', 'l'],
      ['s', 'o', ':', 'l', 'i', 'b', 'c', '.', 'm', 'u', 's', 'l'])] := rfl

theorem scan_musl_head (t : List Char) :
    scanReplace muslPair ("so:ld-musl".data ++ t) =
      "so:libc.musl".data ++ scanReplace muslPair t := by
  have hfp : findPat muslPair
      ('s' :: 'o' :: ':' :: 'l' :: 'd' :: '-' :: 'm' :: 'u' :: 's' :: 'l' :: t) =
      some (['s', 'o', ':', 'l', 'd', '-', 'm', 'u', 's', 'l'],
        ['s', 'o', ':', 'l', 'i', 'b', 'c', '.', 'm', 'u', 's', 'l']) := by
    simp [findPat, muslPair_explicit, List.find?, isPrefixOf_cons_beq, isPrefixOf_nil_char]
  show scanReplace muslPair
      ('s' :: 'o' :: ':' :: 'l' :: 'd' :: '-' :: 'm' :: 'u' :: 's' :: 'l' :: t) =
    's' :: 'o' :: ':' :: 'l' :: 'i' :: 'b' :: 'c' :: '.' :: 'm' :: 'u' :: 's' :: 'l' ::
      scanReplace muslPair t
  rw [scanReplace_cons_some muslPair 's'
    ('o' :: ':' :: 'l' :: 'd' :: '-' :: 'm' :: 'u' :: 's' :: 'l' :: t) _ hfp]
  rfl

/-- C8 (amended): for a regular executable ELF entry with an interpreter and
`no-depends` unset, the first runtime entry generated is
`so:{basename(interp)}` with EVERY occurrence of `so:ld-musl` replaced by
`so:libc.musl` (`strings.ReplaceAll`, not only a leading occurrence); in
particular any interpreter basename `ld-musl*` yields a runtime entry of the
form `so:libc.musl*`. -/
theorem interp_runtime_musl (opts : PackageOption) (e : SoEntry)
    (hsym : e.isSymlink = false) (hreg : e.isRegular = true)
    (hperm : e.perm &&& 0o555 = 0o555) (helf : e.elfOpenOk = true)
    (hnd : opts.noDepends = false) (hint : e.interp ≠ "") :
    (soDepsForEntry opts e).1.head? = some (interpRuntimeEntry e.interp) ∧
    interpRuntimeEntry e.interp ∈ (soDepsForEntry opts e).1 ∧
    (∀ rest : String, baseName e.interp = "ld-musl" ++ rest →
      "so:libc.musl".data.isPrefixOf (interpRuntimeEntry e.interp).data = true) := by
  have hrt : (soDepsForEntry opts e).1.head? = some (interpRuntimeEntry e.interp) ∧
      interpRuntimeEntry e.interp ∈ (soDepsForEntry opts e).1 := by
    simp only [soDepsForEntry, hsym, hreg, helf]
    rw [if_neg (by simp), if_neg (by simp), if_pos hperm, if_neg (by simp),
      if_pos ⟨hint, hnd⟩]
    cases e.importedLibs with
    | none => simp
    | some libs => simp
  refine ⟨hrt.1, hrt.2, ?_⟩
  intro rest hbase
  have hd : ("so:" ++ baseName e.interp).data = "so:ld-musl".data ++ rest.data := by
    rw [hbase, string_data_append, string_data_append, ← List.append_assoc]
    rfl
  show List.isPrefixOf "so:libc.musl".data
      (scanReplace muslPair ("so:" ++ baseName e.interp).data) = true
  rw [hd, scan_musl_head]
  exact isPrefixOf_self_append _ _

theorem interp_runtime_musl_witness :
    (soDepsForEntry ⟨false, false, false⟩
        ⟨"usr/bin/app", false, true, 0o755, true, "/lib/ld-musl-x86_64.so.1",
          some ["libssl.so.3"], none, []⟩).1.head? =
      some (interpRuntimeEntry "/lib/ld-musl-x86_64.so.1") ∧
    "so:libc.musl".data.isPrefixOf
      (interpRuntimeEntry "/lib/ld-musl-x86_64.so.1").data = true := by
  have h := interp_runtime_musl ⟨false, false, false⟩
    ⟨"usr/bin/app", false, true, 0o755, true, "/lib/ld-musl-x86_64.so.1",
      some ["libssl.so.3"], none, []⟩
    (by decide) (by decide) (by decide) (by decide) (by decide) (by decide)
  exact ⟨h.1, h.2.2 "-x86_64.so.1" (by decide)⟩

/-- C8 counterexample: the code substitutes every occurrence of `so:ld-musl`
(`strings.ReplaceAll`), so the pathological interpreter basename
`xso:ld-musl` — which does NOT start with `ld-musl` — is still rewritten,
while the claim's prefix-only substitution would leave it unchanged. -/
theorem interp_musl_prefix_counterexample :
    interpRuntimeEntry "/lib/xso:ld-musl" = "so:xso:libc.musl" ∧
    specMuslPrefixSubst ("so:" ++ baseName "/lib/xso:ld-musl") = "so:xso:ld-musl" ∧
    interpRuntimeEntry "/lib/xso:ld-musl" ≠
      specMuslPrefixSubst ("so:" ++ baseName "/lib/xso:ld-musl") := by
  decide

theorem containsSeq_cons_false (sep : List Char) (c : Char) (rest : List Char)
    (h : containsSeq sep (c :: rest) = false) :
    sep.isPrefixOf (c :: rest) = false ∧ containsSeq sep rest = false := by
  rw [containsSeq, Bool.or_eq_false_iff] at h
  exact h

theorem splitOnAux_no_sep (sep : List Char) :
    ∀ (s : List Char) (fuel : Nat) (acc : List Char), s.length ≤ fuel →
      containsSeq sep s = false →
      splitOnAux sep fuel acc s = [acc.reverse ++ s] := by
  intro s
  induction s with
  | nil =>
    intro fuel acc _ _
    cases fuel with
    | zero => rfl
    | succ f => simp [splitOnAux]
  | cons c rest ih =>
    intro fuel acc hf hc
    obtain ⟨h1, h2⟩ := containsSeq_cons_false sep c rest hc
    cases fuel with
    | zero => simp at hf
    | succ f =>
      simp only [splitOnAux]
      rw [if_neg (by simp [h1])]
      rw [ih f (c :: acc) (by rw [List.length_cons] at hf; omega) h2]
      simp

theorem splitOnAux_single_sep (sep : List Char) (hsep : sep ≠ []) :
    ∀ (a b : List Char) (fuel : Nat) (acc : List Char),
      (a ++ sep ++ b).length ≤ fuel →
      containsSeq sep (a ++ sep.dropLast) = false →
      containsSeq sep b = false →
      splitOnAux sep fuel acc (a ++ sep ++ b) = [acc.reverse ++ a, b] := by
  intro a
  induction a with
  | nil =>
    intro b fuel acc hf _ hB
    obtain ⟨c, sep', hc⟩ : ∃ c sep', sep = c :: sep' := by
      cases sep with
      | nil => exact absurd rfl hsep
      | cons c cs => exact ⟨c, cs, rfl⟩
    subst hc
    simp only [List.nil_append] at hf ⊢
    cases fuel with
    | zero => simp [List.length_append] at hf
    | succ f =>
      rw [List.cons_append]
      simp only [splitOnAux]
      rw [if_pos (by
        rw [isPrefixOf_cons_beq]
        simp [isPrefixOf_self_append])]
      have hlen : ((c :: sep').length - 1) = sep'.length := by simp
      rw [hlen, List.drop_left]
      rw [splitOnAux_no_sep (c :: sep') b f [] (by
        rw [List.cons_append, List.length_cons, List.length_append] at hf
        omega) hB]
      simp

  | cons c a' ih =>
    intro b fuel acc hf hA hB
    have hs_cons : (c :: a') ++ sep ++ b = c :: (a' ++ sep ++ b) := by simp
    have hA_cons : (c :: a') ++ sep.dropLast = c :: (a' ++ sep.dropLast) := by simp
    rw [hA_cons] at hA
    obtain ⟨hA1, hA2⟩ := containsSeq_cons_false sep c (a' ++ sep.dropLast) hA
    have hseplen : 0 < sep.length := List.length_pos.mpr hsep
    have hlast := List.dropLast_append_getLast hsep
    have hnotpfx : sep.isPrefixOf (c :: (a' ++ sep ++ b)) = false := by
      cases hx : sep.isPrefixOf (c :: (a' ++ sep ++ b)) with
      | false => rfl
      | true =>
        exfalso
        have hpfx : sep <+: (c :: (a' ++ sep ++ b)) := List.isPrefixOf_iff_prefix.mp hx
        have hsplit : sep ++ b = sep.dropLast ++ ([sep.getLast hsep] ++ b) := by
          rw [← List.append_assoc, hlast]
        have inner : (a' ++ sep.dropLast) <+: (a' ++ sep ++ b) := by
          rw [List.append_assoc, hsplit, ← List.append_assoc]
          exact List.prefix_append _ _
        have ht_pfx : (c :: (a' ++ sep.dropLast)) <+: (c :: (a' ++ sep ++ b)) :=
          (List.prefix_cons_inj c).mpr inner
        have hsep_t : sep <+: (c :: (a' ++ sep.dropLast)) := by
          apply List.prefix_of_prefix_length_le hpfx ht_pfx
          simp only [List.length_cons, List.length_append, List.length_dropLast]
          omega
        have htrue : sep.isPrefixOf (c :: (a' ++ sep.dropLast)) = true :=
          List.isPrefixOf_iff_prefix.mpr hsep_t
        rw [htrue] at hA1
        exact Bool.noConfusion hA1
    rw [hs_cons]
    cases fuel with
    | zero =>
      rw [hs_cons, List.length_cons] at hf
      simp at hf
    | succ f =>
      simp only [splitOnAux]
      rw [if_neg (by rw [hnotpfx]; exact Bool.false_ne_true)]
      rw [ih b f (c :: acc) (by rw [hs_cons, List.length_cons] at hf; omega) hA2 hB]
      simp

theorem splitOnGo_no_sep (sep s : List Char) (h : containsSeq sep s = false) :
    splitOnGo sep s = [s] := by
  rw [splitOnGo, splitOnAux_no_sep sep s s.length [] le_rfl h]
  simp

theorem splitOnGo_single (sep a b : List Char) (hsep : sep ≠ [])
    (hA : containsSeq sep (a ++ sep.dropLast) = false)
    (hB : containsSeq sep b = false) :
    splitOnGo sep (a ++ sep ++ b) = [a, b] := by
  rw [splitOnGo, splitOnAux_single_sep sep hsep a b _ [] le_rfl hA hB]
  simp

theorem libverOf_no_so (s : String) (h : containsSeq ".so.".data s.data = false) :
    libverOf s = "0" := by
  rw [libverOf, splitOnGo_no_sep _ _ h]

theorem libverOf_single (a b : List Char)
    (hA : containsSeq ".so.".data (a ++ ".so".data) = false)
    (hB : containsSeq ".so.".data b = false) :
    libverOf ⟨a ++ ".so.".data ++ b⟩ = ⟨b⟩ := by
  have hdl : (".so.".data).dropLast = ".so".data := by decide
  have h := splitOnGo_single ".so.".data a b (by decide) (by rw [hdl]; exact hA) hB
  rw [libverOf]
  have hdata : (⟨a ++ ".so.".data ++ b⟩ : String).data = a ++ ".so.".data ++ b := rfl
  rw [hdata, h]

/-- C7: for a regular executable ELF file (0o555 mask set) inside one of the
library directories `{lib, usr/lib, lib64, usr/lib64}`, with no interpreter or
a `libc*` basename, and `no-provides` unset, each `DT_SONAME` string `soname`
yields the provides entry `so:{soname}={libver}`, where `libver` is the part
of `soname` to the right of the literal `.so.` (its second split field) or
`"0"` when `.so.` is absent. -/
theorem soname_provides (opts : PackageOption) (e : SoEntry) (libs ss : List String)
    (hnp : opts.noProvides = false)
    (hsym : e.isSymlink = false) (hreg : e.isRegular = true)
    (hperm : e.perm &&& 0o555 = 0o555) (helf : e.elfOpenOk = true)
    (hgate : e.interp = "" ∨ "libc".data.isPrefixOf (baseName e.path).data = true)
    (hlibdir : ∃ d ∈ libDirs, ∃ rest : String, e.path = d ++ "/" ++ rest)
    (hlibs : e.importedLibs = some libs) (hson : e.sonames = some ss) :
    (soDepsForEntry opts e).2 = ss.map soProvideEntry ∧
    (∀ s : String, containsSeq ".so.".data s.data = false → libverOf s = "0") ∧
    (∀ a b : List Char,
      containsSeq ".so.".data (a ++ ".so".data) = false →
      containsSeq ".so.".data b = false →
      libverOf ⟨a ++ ".so.".data ++ b⟩ = ⟨b⟩) := by
  refine ⟨?_, libverOf_no_so, libverOf_single⟩
  have hpfx : allowedPfx e.path libDirs = true := by
    obtain ⟨d, hd, rest, hrest⟩ := hlibdir
    apply List.any_eq_true.mpr
    refine ⟨d, hd, ?_⟩
    rw [hrest]
    have hdd : (d ++ "/" ++ rest).data = d.data ++ ("/".data ++ rest.data) := by
      rw [string_data_append, string_data_append, List.append_assoc]
    rw [hdd]
    exact isPrefixOf_self_append _ _
  simp only [soDepsForEntry, hsym, hreg, helf, hlibs, hson]
  rcases hgate with hg | hg <;> simp [hperm, hnp, hg, hpfx]

theorem soname_provides_witness :
    (soDepsForEntry ⟨false, false, false⟩
        ⟨"usr/lib/libfoo.so.2.1", false, true, 0o755, true, "",
          some [], some ["libfoo.so.2"], []⟩).2 = ["so:libfoo.so.2=2"] := by
  have h := soname_provides ⟨false, false, false⟩
    ⟨"usr/lib/libfoo.so.2.1", false, true, 0o755, true, "",
      some [], some ["libfoo.so.2"], []⟩
    [] ["libfoo.so.2"] (by decide) (by decide) (by decide) (by decide) (by decide)
    (Or.inl (by decide))
    ⟨"usr/lib", by decide, "libfoo.so.2.1", by decide⟩ (by decide) (by decide)
  exact h.1.trans (by decide)

/-- C9: directory membership in the command-provider scan and in the
library-directory check of the SONAME scan is a plain string-prefix test on
the slash-separated path, not path-component containment: the regular
executable `binx/tool` is not inside any of `{bin, sbin, usr/bin, usr/sbin}`
yet still yields a `cmd:` provides entry, and `libexec/libfoo.so.6` is not
inside any of `{lib, usr/lib, lib64, usr/lib64}` yet is still scanned and
yields an `so:` provides entry. -/
theorem prefix_check_not_component_check :
    cmdProviderForEntry false "1.0" 0 "binx/tool" true 0o755 = ["cmd:tool=1.0-r0"] ∧
    cmdPrefixes.any (fun d => isUnderDir "binx/tool" d) = false ∧
    (soDepsForEntry ⟨false, false, false⟩
        ⟨"libexec/libfoo.so.6", false, true, 0o755, true, "",
          some [], some ["libfoo.so.6"], []⟩).2 = ["so:libfoo.so.6=6"] ∧
    libDirs.any (fun d => isUnderDir "libexec/libfoo.so.6" d) = false := by
  decide
